import Mathlib

/-!
A verification development for the `elpris-se4` scripts.

The two pieces of logic with non-trivial semantics are embedded here:

* `build_price_rows` from `tibber_to_json.py`: turns a list of Tibber price
  samples (each a dict with a `startsAt` ISO-8601 string and a `total` price)
  into rows with `SEK_per_kWh`, `time_start`, `time_end`.
* `sum_nodes` from `tibber_stats.py`: sums consumption/cost over a node list,
  with an optional last-N limit and an optional (year, month) filter, inside a
  per-node `try/except` that skips failing records.

Modelling conventions:

* Timestamps are carried as their raw strings; `parse_iso` / `parse_date`
  model `datetime.fromisoformat` restricted to the fully written shape
  `YYYY-MM-DDTHH:MM:SS` plus an offset (`Z`, `+HH:MM` or `-HH:MM`) that the
  Tibber feed produces; an aware datetime is represented by its instant as
  whole seconds since the Unix epoch (an `Int`).  A naive timestamp (no
  offset) is treated as unparseable by `parse_iso`, matching the aware
  arithmetic the script performs; `parse_date` only extracts the civil
  date, exactly like `datetime.fromisoformat(s).date()`.
* Python's `sorted(..., key=...)` is a stable sort; it is modelled by
  `List.insertionSort` (stable) over the key order.  Python compares strings
  lexicographically by code point, modelled by `charListLe` below.
* Numbers are idealised as `Rat` (binary floating point is not modelled; no
  claim below touches a rounding boundary).  Python's `round(x, k)` is
  modelled as decimal round-half-to-even, `float(v)` on a non-numeric value
  as a failing coercion (`pyFloat?` returning `none`).
* A raised-and-caught exception inside the `for` loop of `sum_nodes` is
  modelled by the loop body returning its accumulator at the exact point
  the exception would occur; a raised exception with no handler
  (`aggregate_consumption` in `tibber_to_json.py`) is modelled by `Option`.
-/

/-- Lexicographic code-point comparison of two character lists; this is how
Python compares the raw `startsAt` / `from` strings when sorting. -/
def charListLe : List Char → List Char → Bool
  | [], _ => true
  | _ :: _, [] => false
  | a :: as, b :: bs =>
    if a.toNat < b.toNat then true
    else if b.toNat < a.toNat then false
    else charListLe as bs

theorem charListLe_refl (l : List Char) : charListLe l l = true := by
  induction l with
  | nil => rfl
  | cons a t ih => simp [charListLe, ih]

theorem charListLe_total (x y : List Char) :
    charListLe x y = true ∨ charListLe y x = true := by
  induction x generalizing y with
  | nil => exact Or.inl rfl
  | cons a as ih =>
    cases y with
    | nil => exact Or.inr rfl
    | cons b bs =>
      rcases Nat.lt_trichotomy a.toNat b.toNat with h | h | h
      · exact Or.inl (by simp [charListLe, h])
      · have h2 : ¬ a.toNat < b.toNat := by omega
        have h3 : ¬ b.toNat < a.toNat := by omega
        rcases ih bs with h4 | h4
        · exact Or.inl (by simp [charListLe, h2, h3, h4])
        · exact Or.inr (by simp [charListLe, h2, h3, h4])
      · exact Or.inr (by simp [charListLe, h])

theorem charListLe_trans : ∀ {x y z : List Char},
    charListLe x y = true → charListLe y z = true → charListLe x z = true
  | [], _, _, _, _ => rfl
  | a :: as, [], _, h1, _ => by simp [charListLe] at h1
  | _ :: _, _ :: _, [], _, h2 => by simp [charListLe] at h2
  | a :: as, b :: bs, c :: cs, h1, h2 => by
    rcases Nat.lt_trichotomy a.toNat b.toNat with hab | hab | hab <;>
      rcases Nat.lt_trichotomy b.toNat c.toNat with hbc | hbc | hbc
    all_goals
      first
      | (simp [charListLe, show a.toNat < c.toNat by omega])
      | (exfalso; simp [charListLe,
          show ¬ b.toNat < c.toNat by omega,
          show c.toNat < b.toNat by omega] at h2)
      | (exfalso; simp [charListLe,
          show ¬ a.toNat < b.toNat by omega,
          show b.toNat < a.toNat by omega] at h1)
      | (have h1' : charListLe as bs = true := by
          simpa [charListLe, show ¬ a.toNat < b.toNat by omega,
            show ¬ b.toNat < a.toNat by omega] using h1
         have h2' : charListLe bs cs = true := by
          simpa [charListLe, show ¬ b.toNat < c.toNat by omega,
            show ¬ c.toNat < b.toNat by omega] using h2
         simp [charListLe, show ¬ a.toNat < c.toNat by omega,
           show ¬ c.toNat < a.toNat by omega,
           charListLe_trans h1' h2'])

/-! ### ISO-8601 parsing (`parse_iso`, `parse_date`) -/

/-- Value of a decimal digit character, `none` when the character is not a
digit. -/
def digitVal (c : Char) : Option Nat :=
  if 48 ≤ c.toNat ∧ c.toNat ≤ 57 then some (c.toNat - 48) else none

/-- Read exactly two digits. -/
def parse2 : List Char → Option (Nat × List Char)
  | a :: b :: rest =>
    match digitVal a, digitVal b with
    | some x, some y => some (10 * x + y, rest)
    | _, _ => none
  | _ => none

/-- Read exactly four digits. -/
def parse4 : List Char → Option (Nat × List Char)
  | a :: b :: c :: d :: rest =>
    match digitVal a, digitVal b, digitVal c, digitVal d with
    | some w, some x, some y, some z => some (1000 * w + 100 * x + 10 * y + z, rest)
    | _, _, _, _ => none
  | _ => none

/-- Require a specific character. -/
def expectChar (c : Char) : List Char → Option (List Char)
  | x :: rest => if x = c then some rest else none
  | [] => none

def isLeap (y : Nat) : Bool := (y % 4 == 0 && y % 100 != 0) || y % 400 == 0

def daysInMonth (y m : Nat) : Nat :=
  if m = 2 then (if isLeap y then 29 else 28)
  else if m = 4 ∨ m = 6 ∨ m = 9 ∨ m = 11 then 30
  else 31

/-- Days from 1970-01-01 to the civil date `y-m-d` (proleptic Gregorian,
`y ≥ 1`); the standard days-from-civil computation. -/
def daysFromCivil (y m d : Nat) : Int :=
  let y' := if m ≤ 2 then y - 1 else y
  let era := y' / 400
  let yoe := y' % 400
  let mp := (m + 9) % 12
  let doy := (153 * mp + 2) / 5 + (d - 1)
  let doe := yoe * 365 + yoe / 4 - yoe / 100 + doy
  ((era * 146097 + doe : Nat) : Int) - 719468

/-- Parse the civil part `YYYY-MM-DDTHH:MM:SS`, validating all calendar
ranges like `datetime.fromisoformat`; returns the fields and the rest of the
string (the offset part, possibly empty). -/
def parseDateTime (cs : List Char) :
    Option (Nat × Nat × Nat × Nat × Nat × Nat × List Char) := do
  let (y, cs) ← parse4 cs
  let cs ← expectChar '-' cs
  let (mo, cs) ← parse2 cs
  let cs ← expectChar '-' cs
  let (d, cs) ← parse2 cs
  let cs ← expectChar 'T' cs
  let (h, cs) ← parse2 cs
  let cs ← expectChar ':' cs
  let (mi, cs) ← parse2 cs
  let cs ← expectChar ':' cs
  let (s, cs) ← parse2 cs
  if 1 ≤ y ∧ 1 ≤ mo ∧ mo ≤ 12 ∧ 1 ≤ d ∧ d ≤ daysInMonth y mo ∧
      h ≤ 23 ∧ mi ≤ 59 ∧ s ≤ 59 then
    pure (y, mo, d, h, mi, s, cs)
  else none

/-- Parse a UTC offset `±HH:MM` (the whole remaining string), in seconds. -/
def parseOffset (cs : List Char) : Option Int :=
  match cs with
  | sg :: rest =>
    if sg = '+' ∨ sg = '-' then
      match parse2 rest with
      | none => none
      | some (oh, r) =>
        match expectChar ':' r with
        | none => none
        | some r =>
          match parse2 r with
          | none => none
          | some (om, r) =>
            if r = [] ∧ oh ≤ 23 ∧ om ≤ 59 then
              some (if sg = '-' then -(oh * 3600 + om * 60 : Int)
                    else (oh * 3600 + om * 60 : Int))
            else none
    else none
  | [] => none

/-- The `s.replace("Z", "+00:00")` of `parse_iso` in `tibber_to_json.py`. -/
def replaceZ : List Char → List Char
  | [] => []
  | c :: cs =>
    (if c = 'Z' then ['+', '0', '0', ':', '0', '0'] else [c]) ++ replaceZ cs

/-- Seconds since the Unix epoch of the civil time `y-mo-d h:mi:s`. -/
def civilToSecs (y mo d h mi s : Nat) : Int :=
  daysFromCivil y mo d * 86400 + ((h * 3600 + mi * 60 + s : Nat) : Int)

/-- `parse_iso` of `tibber_to_json.py`: replace `Z` by `+00:00`, then
`datetime.fromisoformat`; the aware result is represented by its instant in
seconds since the Unix epoch. -/
def parse_iso (s : String) : Option Int := do
  let (y, mo, d, h, mi, se, rest) ← parseDateTime (replaceZ s.data)
  let off ← parseOffset rest
  pure (civilToSecs y mo d h mi se - off)

/-- `parse_date` of `tibber_stats.py`: `datetime.fromisoformat(s).date()`,
i.e. the civil `(year, month, day)` of the timestamp (no timezone
conversion); the offset may be `Z`, `±HH:MM` or absent. -/
def parse_date (s : String) : Option (Nat × Nat × Nat) := do
  let (y, mo, d, _, _, _, rest) ← parseDateTime s.data
  if rest = [] ∨ rest = ['Z'] ∨ (parseOffset rest).isSome then
    pure (y, mo, d)
  else none

/-! ### Decimal rounding (Python's `round(x, k)`) -/

/-- Round-half-to-even of a rational to an integer (Python's `round` on an
exact value). -/
def halfEvenRound (x : Rat) : Int :=
  let f := Int.ediv x.num x.den
  let r2 := 2 * (x.num - f * x.den)
  if r2 < x.den then f
  else if (x.den : Int) < r2 then f + 1
  else if f % 2 = 0 then f else f + 1

/-- Python's `round(x, k)`, idealised over exact rationals. -/
def roundTo (k : Nat) (x : Rat) : Rat :=
  ((halfEvenRound (x * (10 : Rat) ^ k) : Int) : Rat) / (10 : Rat) ^ k

/-! ### The Interval Builder (`build_price_rows` in `tibber_to_json.py`) -/

/-- One element of the `priceInfo.today` / `priceInfo.tomorrow` lists: a dict
with `startsAt` (ISO string) and `total` (the unit price). -/
structure PriceSample where
  startsAt : String
  total : Rat
deriving DecidableEq

/-- One output row of `build_price_rows`.  The script serialises
`time_start` / `time_end` with `.isoformat()`; here the two aware datetimes
are carried as their instants (seconds since the Unix epoch). -/
structure PriceRow where
  SEK_per_kWh : Rat
  time_start : Int
  time_end : Int
deriving DecidableEq

def defRow : PriceRow := ⟨0, 0, 0⟩

/-- The key order of `sorted(prices, key=lambda p: p["startsAt"])`: Python
compares the raw strings lexicographically by code point. -/
def sampleLe (a b : PriceSample) : Prop :=
  charListLe a.startsAt.data b.startsAt.data = true

instance : DecidableRel sampleLe := fun a b =>
  inferInstanceAs (Decidable (charListLe a.startsAt.data b.startsAt.data = true))

instance : IsTotal PriceSample sampleLe :=
  ⟨fun a b => charListLe_total a.startsAt.data b.startsAt.data⟩

instance : IsTrans PriceSample sampleLe :=
  ⟨fun _ _ _ h1 h2 => charListLe_trans h1 h2⟩

/-- Line 68 of `tibber_to_json.py`:
`ps = sorted(prices, key=lambda p: p["startsAt"])` — a stable sort on the raw
`startsAt` string. -/
def sortPrices (prices : List PriceSample) : List PriceSample :=
  List.insertionSort sampleLe prices

/-- The list comprehension `[parse_iso(p["startsAt"]) for p in ps]`; a
`ValueError` on any element aborts the call, modelled as `none`. -/
def parseAll : List String → Option (List Int)
  | [] => some []
  | s :: rest => do
    let t ← parse_iso s
    let ts ← parseAll rest
    pure (t :: ts)

/-- The body of `for i, p in enumerate(ps)` in `build_price_rows`:
`time_start = starts[i]`; `time_end = starts[i+1]` when a successor exists,
otherwise `start + (starts[-1] - starts[-2])` when at least two samples
exist, else `start + 1h`; the price is `round(float(p["total"]), 5)`. -/
def mkRow (ps : List PriceSample) (starts : List Int) (i : Nat) : PriceRow :=
  let start_dt := starts.getD i 0
  let end_dt :=
    if i + 1 < ps.length then starts.getD (i + 1) 0
    else
      start_dt +
        (if 2 ≤ starts.length then
          starts.getD (starts.length - 1) 0 - starts.getD (starts.length - 2) 0
        else 3600)
  ⟨roundTo 5 (ps.getD i ⟨"", 0⟩).total, start_dt, end_dt⟩

/-- `build_price_rows` of `tibber_to_json.py` (lines 53-90).  Returns `none`
when `parse_iso` raises on some sample (the script would crash); otherwise
the row list. -/
def build_price_rows (prices : List PriceSample) : Option (List PriceRow) :=
  if prices.isEmpty then some []
  else
    let ps := sortPrices prices
    match parseAll (ps.map (·.startsAt)) with
    | none => none
    | some starts => some ((List.range ps.length).map (mkRow ps starts))

/-! ### The Window Aggregator (`sum_nodes` in `tibber_stats.py`) -/

/-- A JSON value carried in a node's `consumption` / `cost` field: either a
number or a string. -/
inductive Val where
  | num (q : Rat)
  | str (s : String)
deriving DecidableEq

/-- Take a maximal run of decimal digits. -/
def takeDigits : List Char → List Nat × List Char
  | [] => ([], [])
  | c :: cs =>
    match digitVal c with
    | some d => let (ds, r) := takeDigits cs; (d :: ds, r)
    | none => ([], c :: cs)

def digitsToNat (ds : List Nat) : Nat := ds.foldl (fun a d => 10 * a + d) 0

/-- Python's `float(str)` restricted to plain decimal literals
`[+-]?digits[.digits]` with at least one digit (the shapes relevant here;
a string such as `"abc"` fails). -/
def parseFloat? (s : String) : Option Rat :=
  let p : Int × List Char :=
    match s.data with
    | '-' :: r => (-1, r)
    | '+' :: r => (1, r)
    | r => (1, r)
  let sgn := p.1
  let (ip, rest) := takeDigits p.2
  match rest with
  | [] => if ip = [] then none else some ((sgn : Rat) * (digitsToNat ip : Nat))
  | '.' :: r =>
    let (fp, rest2) := takeDigits r
    if rest2 = [] ∧ (ip ≠ [] ∨ fp ≠ []) then
      some ((sgn : Rat) *
        ((digitsToNat ip : Nat) + (digitsToNat fp : Nat) / (10 : Rat) ^ fp.length))
    else none
  | _ => none

/-- Python's `float(v)`: a number is itself, a string must read as a decimal
literal; anything else raises, modelled as `none`. -/
def pyFloat? : Val → Option Rat
  | .num q => some q
  | .str s => parseFloat? s

/-- One element of `consumption.nodes`: a dict with `from`, `consumption`,
`cost`, `currency`, each possibly absent/null. -/
structure Node where
  «from» : Option String
  consumption : Option Val
  cost : Option Val
  currency : Option String
deriving DecidableEq

/-- The result dict of `sum_nodes`: `{"kwh": ..., "cost": ..., "currency": ...}`. -/
structure SumOut where
  kwh : Rat
  cost : Rat
  currency : Option String
deriving DecidableEq

/-- The sort key of line 105, `n.get("from") or ""`: a missing `from` sorts
as the empty string. -/
def nodeKey (n : Node) : String := n.«from».getD ""

/-- The key order of `sorted(nodes, key=lambda n: n.get("from") or "")`. -/
def nodeLe (a b : Node) : Prop :=
  charListLe (nodeKey a).data (nodeKey b).data = true

instance : DecidableRel nodeLe := fun a b =>
  inferInstanceAs (Decidable (charListLe (nodeKey a).data (nodeKey b).data = true))

instance : IsTotal Node nodeLe :=
  ⟨fun a b => charListLe_total (nodeKey a).data (nodeKey b).data⟩

instance : IsTrans Node nodeLe :=
  ⟨fun _ _ _ h1 h2 => charListLe_trans h1 h2⟩

/-- Line 105: the stable ascending sort on the `from` key. -/
def sortNodes (nodes : List Node) : List Node :=
  List.insertionSort nodeLe nodes

/-- Python's `xs[-l:]` (lines 107-108).  Note `-0 == 0`, so `l = 0` yields
`xs[0:]`, the whole list, not the empty suffix. -/
def takeLast (l : Nat) (xs : List Node) : List Node :=
  if l = 0 then xs else xs.drop (xs.length - l)

/-- Lines 107-108: `if limit is not None: nodes_sorted = nodes_sorted[-limit:]`. -/
def applyLimit : Option Nat → List Node → List Node
  | none, xs => xs
  | some l, xs => takeLast l xs

/-- The `if not currency` test of line 127: Python falsiness of an optional
string (`None` or the empty string). -/
def falsyCur : Option String → Bool
  | none => true
  | some s => s == ""

/-- Line 127-128: `if not currency: currency = n.get("currency")`. -/
def node_step_cur (acc : SumOut) (n : Node) : SumOut :=
  if falsyCur acc.currency then { acc with currency := n.currency } else acc

/-- Lines 125-126: `if cost is not None: total_cost += float(cost)`.  A
coercion failure raises into the `except`, keeping the kwh increment already
made but skipping the currency line. -/
def node_step_cost (acc : SumOut) (n : Node) : SumOut :=
  match n.cost with
  | some v =>
    match pyFloat? v with
    | none => acc
    | some q => node_step_cur { acc with cost := acc.cost + q } n
  | none => node_step_cur acc n

/-- Lines 123-124: `if c is not None: total_kwh += float(c)`.  A coercion
failure raises before any mutation of this iteration. -/
def node_step_core (acc : SumOut) (n : Node) : SumOut :=
  match n.consumption with
  | some v =>
    match pyFloat? v with
    | none => acc
    | some q => node_step_cost { acc with kwh := acc.kwh + q } n
  | none => node_step_cost acc n

/-- The body of `for n in nodes_sorted` (lines 114-130), including the
month filter of lines 118-121 and the `try/except: continue` that absorbs
`KeyError` on `n["from"]`, a `parse_date` failure and coercion failures. -/
def node_step (filter_month : Option (Nat × Nat)) (acc : SumOut) (n : Node) :
    SumOut :=
  match filter_month with
  | some ym =>
    match n.«from» with
    | none => acc
    | some s =>
      match parse_date s with
      | none => acc
      | some (y, mo, _) => if (y, mo) = ym then node_step_core acc n else acc
  | none => node_step_core acc n

/-- Line 132: the final rounding into the result dict. -/
def finalize (t : SumOut) : SumOut :=
  ⟨roundTo 3 t.kwh, roundTo 2 t.cost, t.currency⟩

/-- `sum_nodes` of `tibber_stats.py` (lines 95-132). -/
def sum_nodes (nodes : List Node) (limit : Option Nat)
    (filter_month : Option (Nat × Nat)) : SumOut :=
  if nodes.isEmpty then ⟨0, 0, none⟩
  else
    finalize ((applyLimit limit (sortNodes nodes)).foldl
      (node_step filter_month) ⟨0, 0, none⟩)

/-- `aggregate_consumption` of `tibber_to_json.py` (lines 92-103): the same
summation but with no `try/except` — a coercion failure aborts the whole
call (`none`). -/
def aggregate_consumption_aux : List Node → Rat → Rat → Option (Rat × Rat)
  | [], kwh, cost => some (roundTo 3 kwh, roundTo 2 cost)
  | n :: rest, kwh, cost =>
    let kwh? : Option Rat :=
      match n.consumption with
      | none => some kwh
      | some v => (pyFloat? v).map (kwh + ·)
    match kwh? with
    | none => none
    | some kwh' =>
      let cost? : Option Rat :=
        match n.cost with
        | none => some cost
        | some v => (pyFloat? v).map (cost + ·)
      match cost? with
      | none => none
      | some cost' => aggregate_consumption_aux rest kwh' cost'

def aggregate_consumption (nodes : List Node) : Option (Rat × Rat) :=
  aggregate_consumption_aux nodes 0 0

/-! ### Spec-side selection predicates -/

/-- Whether a node's `from` month matches the target `(year, month)`: the
node has a parseable `from` whose civil date lies in that month.  A node
failing this (including `KeyError` / `ValueError`) is skipped by the filter
stage of the loop. -/
def monthMatches (ym : Nat × Nat) (n : Node) : Bool :=
  match n.«from» with
  | none => false
  | some s =>
    match parse_date s with
    | none => false
    | some (y, mo, _) => (y, mo) == ym

/-- Whether the filter stage of the loop lets the node through. -/
def passes_filter (fm : Option (Nat × Nat)) (n : Node) : Bool :=
  match fm with
  | none => true
  | some ym => monthMatches ym n

/-- Whether an optional field value survives `float(...)`: absent is fine
(no coercion is attempted), present must coerce. -/
def coercible : Option Val → Bool
  | none => true
  | some v => (pyFloat? v).isSome

/-- The contribution of an optional field: absent contributes `0`, present
contributes its coerced value, `none` when coercion fails. -/
def coerce_or_zero : Option Val → Option Rat
  | none => some 0
  | some v => pyFloat? v

/-- Whether a node is retained by the filter and processed to the end of the
loop body (both coercions succeed), i.e. reaches the currency line. -/
def node_ok (fm : Option (Nat × Nat)) (n : Node) : Bool :=
  passes_filter fm n && coercible n.consumption && coercible n.cost

/-- The final `n` entries of a list (the whole list when it is shorter):
the spec's notion of a last-N window. -/
def lastEntries (n : Nat) (xs : List Node) : List Node :=
  xs.drop (xs.length - n)

/-- A node's currency when it is truthy in Python's sense (neither null nor
the empty string); `none` otherwise.  Only a truthy value stops the
`if not currency` reassignments of line 127. -/
def truthyCur (n : Node) : Option String :=
  match n.currency with
  | some s => if s = "" then none else some s
  | none => none

/-- The spec-side currency of an aggregate over the list of processed-ok
samples: the first truthy currency; if none is truthy, the currency field
of the last ok sample (a falsy value is assigned but stays overwritable,
so the last assignment wins); `dflt` when the list is empty. -/
def currency_spec (l : List Node) (dflt : Option String) : Option String :=
  match l.findSome? truthyCur with
  | some s => some s
  | none =>
    match l.getLast? with
    | some n => n.currency
    | none => dflt

/-! ### General helper lemmas -/

theorem getD_range_map {α : Type} (f : Nat → α) (n i : Nat) (h : i < n) (d : α) :
    ((List.range n).map f).getD i d = f i := by
  have hlen : i < ((List.range n).map f).length := by simp [h]
  rw [List.getD_eq_getElem _ _ hlen]
  simp

theorem parseAll_length : ∀ {l : List String} {ts : List Int},
    parseAll l = some ts → ts.length = l.length := by
  intro l
  induction l with
  | nil =>
    intro ts h
    unfold parseAll at h
    cases h
    rfl
  | cons s rest ih =>
    intro ts h
    cases hp : parse_iso s with
    | none => simp [parseAll, hp] at h
    | some t =>
      cases hr : parseAll rest with
      | none => simp [parseAll, hp, hr] at h
      | some tr =>
        simp [parseAll, hp, hr] at h
        simp [← h, ih hr]

theorem halfEvenRound_intCast (m : Int) : halfEvenRound ((m : Int) : Rat) = m := by
  unfold halfEvenRound
  simp only [Rat.num_intCast, Rat.den_intCast]
  push_cast
  rw [show Int.ediv m 1 = m from Int.ediv_one m]
  norm_num

theorem roundTo_intCast (k : Nat) (n : Int) :
    roundTo k ((n : Int) : Rat) = (n : Rat) := by
  have hx : (n : Rat) * (10 : Rat) ^ k = ((n * 10 ^ k : Int) : Rat) := by
    push_cast; ring
  have hp : ((10 : Rat) ^ k) ≠ 0 := by positivity
  rw [roundTo, hx, halfEvenRound_intCast]
  push_cast
  field_simp

theorem roundTo_zero (k : Nat) : roundTo k 0 = 0 := by
  have := roundTo_intCast k 0
  simpa using this

theorem finalize_zero : finalize ⟨0, 0, none⟩ = ⟨0, 0, none⟩ := by
  simp [finalize, roundTo_zero]

/-! ### Interval Builder lemmas -/

theorem build_price_rows_elim (prices : List PriceSample) (rows : List PriceRow)
    (hne : prices ≠ []) (hr : build_price_rows prices = some rows) :
    ∃ starts, parseAll ((sortPrices prices).map (·.startsAt)) = some starts ∧
      rows = (List.range (sortPrices prices).length).map
        (mkRow (sortPrices prices) starts) := by
  cases prices with
  | nil => exact absurd rfl hne
  | cons a t =>
    unfold build_price_rows at hr
    rw [if_neg (by simp)] at hr
    cases hps : parseAll ((sortPrices (a :: t)).map (·.startsAt)) with
    | none =>
      simp only [hps] at hr
      exact Option.noConfusion hr
    | some starts =>
      simp only [hps, Option.some.injEq] at hr
      exact ⟨starts, rfl, hr.symm⟩

theorem build_price_rows_sorted_eq (prices : List PriceSample) (starts : List Int)
    (hne : prices ≠ []) (hs : List.Sorted sampleLe prices)
    (hp : parseAll (prices.map (·.startsAt)) = some starts) :
    build_price_rows prices =
      some ((List.range prices.length).map (mkRow prices starts)) := by
  have hsort : sortPrices prices = prices := hs.insertionSort_eq
  cases prices with
  | nil => exact absurd rfl hne
  | cons a t =>
    unfold build_price_rows
    rw [if_neg (by simp)]
    simp only [hsort, hp]

/-! ### Claim C1 -/

/-- C1: for every sorted non-empty list of price samples (all of whose
timestamps parse, yielding `starts`), `build_price_rows` gives interval `i`
`time_start = starts[i]`; when a successor exists `time_end = starts[i+1]`;
the last interval's `time_end` is its `time_start` plus
`starts[last] - starts[last-1]` when at least two samples exist, else plus
exactly one hour (3600 s). -/
theorem claim_C1_interval_times (prices : List PriceSample) (starts : List Int)
    (hne : prices ≠ []) (hs : List.Sorted sampleLe prices)
    (hp : parseAll (prices.map (·.startsAt)) = some starts)
    (i : Nat) (hi : i < prices.length) :
    ∃ rows, build_price_rows prices = some rows ∧
      rows.length = prices.length ∧
      (rows.getD i defRow).time_start = starts.getD i 0 ∧
      (i + 1 < prices.length →
        (rows.getD i defRow).time_end = starts.getD (i + 1) 0) ∧
      (i + 1 = prices.length →
        (rows.getD i defRow).time_end =
          starts.getD i 0 +
            (if 2 ≤ prices.length then
              starts.getD (prices.length - 1) 0 - starts.getD (prices.length - 2) 0
            else 3600)) := by
  refine ⟨_, build_price_rows_sorted_eq prices starts hne hs hp, ?_, ?_, ?_, ?_⟩
  · simp
  · rw [getD_range_map _ _ _ hi]
    rfl
  · intro hlt
    rw [getD_range_map _ _ _ hi]
    simp [mkRow, hlt]
  · intro hlast
    rw [getD_range_map _ _ _ hi]
    have hlen : starts.length = prices.length := by
      simpa using parseAll_length hp
    have hnlt : ¬ (i + 1 < prices.length) := by omega
    simp [mkRow, hnlt, hlen]

/-- C1 witness: three samples 15 minutes apart starting 2025-01-01T00:00Z;
the last interval starts at 1735691400 and ends 900 seconds (15 minutes)
later, inferred from the prior gap — not one hour. -/
theorem claim_C1_interval_times_witness :
    ∃ rows,
      build_price_rows
        [⟨"2025-01-01T00:00:00Z", 1⟩, ⟨"2025-01-01T00:15:00Z", 2⟩,
         ⟨"2025-01-01T00:30:00Z", 3⟩] = some rows ∧
      rows.length = 3 ∧
      (rows.getD 2 defRow).time_start = 1735691400 ∧
      (rows.getD 2 defRow).time_end = 1735692300 := by
  obtain ⟨rows, h1, h2, h3, _, h5⟩ :=
    claim_C1_interval_times
      [⟨"2025-01-01T00:00:00Z", 1⟩, ⟨"2025-01-01T00:15:00Z", 2⟩,
       ⟨"2025-01-01T00:30:00Z", 3⟩]
      [1735689600, 1735690500, 1735691400]
      (by decide) (by decide) (by decide) 2 (by decide)
  refine ⟨rows, h1, by simpa using h2, by simpa using h3, ?_⟩
  have h6 := h5 (by decide)
  rw [h6]
  decide

/-! ### Claim C2 -/

/-- C2: for every non-empty sorted price-sample list for which
`build_price_rows` returns rows, it returns exactly one row per input sample,
and for every index `i` other than the last, row `i`'s `time_end` equals row
`i+1`'s `time_start`. -/
theorem claim_C2_length_contiguity (prices : List PriceSample)
    (rows : List PriceRow)
    (hne : prices ≠ []) (hs : List.Sorted sampleLe prices)
    (hr : build_price_rows prices = some rows) :
    rows.length = prices.length ∧
      ∀ i, i + 1 < rows.length →
        (rows.getD i defRow).time_end = (rows.getD (i + 1) defRow).time_start := by
  obtain ⟨starts, hps, hrows⟩ := build_price_rows_elim prices rows hne hr
  have hsort : sortPrices prices = prices := hs.insertionSort_eq
  rw [hsort] at hps hrows
  subst hrows
  constructor
  · simp
  · intro i hi
    have hlen : i + 1 < prices.length := by simpa using hi
    rw [getD_range_map _ _ _ (by omega : i < prices.length),
      getD_range_map _ _ _ hlen]
    simp [mkRow, hlen]

/-- C2 witness: two hourly samples give two rows, and the first row's
`time_end` meets the second row's `time_start`. -/
theorem claim_C2_length_contiguity_witness :
    ∃ rows,
      build_price_rows
        [⟨"2025-01-01T00:00:00Z", 1⟩, ⟨"2025-01-01T01:00:00Z", 2⟩] = some rows ∧
      rows.length = 2 ∧
      (rows.getD 0 defRow).time_end = (rows.getD 1 defRow).time_start := by
  have hb :=
    build_price_rows_sorted_eq
      [⟨"2025-01-01T00:00:00Z", 1⟩, ⟨"2025-01-01T01:00:00Z", 2⟩]
      [1735689600, 1735693200] (by decide) (by decide) (by decide)
  obtain ⟨hlen, hcont⟩ :=
    claim_C2_length_contiguity
      [⟨"2025-01-01T00:00:00Z", 1⟩, ⟨"2025-01-01T01:00:00Z", 2⟩]
      _ (by decide) (by decide) hb
  exact ⟨_, hb, by simp, hcont 0 (by simp)⟩

/-! ### Claim C3 -/

theorem pairwise_lt_getD (l : List Int) (hmono : List.Pairwise (· < ·) l)
    (i j : Nat) (hij : i < j) (hj : j < l.length) :
    l.getD i 0 < l.getD j 0 := by
  rw [List.getD_eq_getElem _ _ (by omega), List.getD_eq_getElem _ _ hj]
  exact List.pairwise_iff_getElem.mp hmono i j (by omega) hj hij

/-- C3 counterexample: two samples carrying the same timestamp (duplicates
allowed by the claim) produce a first interval with `time_start = time_end`,
so not every interval satisfies the strict inequality. -/
theorem claim_C3_counterexample :
    (build_price_rows
      [⟨"2025-01-01T00:00:00Z", 1⟩, ⟨"2025-01-01T00:00:00Z", 2⟩]).isSome ∧
    ((build_price_rows
      [⟨"2025-01-01T00:00:00Z", 1⟩, ⟨"2025-01-01T00:00:00Z", 2⟩]).getD []).length = 2 ∧
    ¬ ((((build_price_rows
          [⟨"2025-01-01T00:00:00Z", 1⟩, ⟨"2025-01-01T00:00:00Z", 2⟩]).getD []).getD
            0 defRow).time_start <
        (((build_price_rows
          [⟨"2025-01-01T00:00:00Z", 1⟩, ⟨"2025-01-01T00:00:00Z", 2⟩]).getD []).getD
            0 defRow).time_end) := by
  decide

/-- C3 amended: every interval satisfies `time_start < time_end` strictly,
provided the parsed instants are strictly increasing in the string-sorted
order the code uses (in particular the timestamps are pairwise distinct). -/
theorem claim_C3_amended_strict (prices : List PriceSample) (starts : List Int)
    (rows : List PriceRow)
    (hp : parseAll ((sortPrices prices).map (·.startsAt)) = some starts)
    (hmono : List.Pairwise (· < ·) starts)
    (hr : build_price_rows prices = some rows) :
    ∀ r ∈ rows, r.time_start < r.time_end := by
  intro r hrmem
  cases prices with
  | nil =>
    have hrows : rows = [] := by
      unfold build_price_rows at hr
      simpa using hr.symm
    subst hrows
    cases hrmem
  | cons a t =>
    obtain ⟨starts2, hps2, hrows⟩ :=
      build_price_rows_elim (a :: t) rows (by simp) hr
    have hse : starts2 = starts := Option.some.inj (hps2.symm.trans hp)
    rw [← hse] at hmono
    subst hrows
    rw [List.mem_map] at hrmem
    obtain ⟨i, hi_mem, hri⟩ := hrmem
    rw [List.mem_range] at hi_mem
    have hlen : starts2.length = (sortPrices (a :: t)).length := by
      simpa using parseAll_length hps2
    subst hri
    by_cases hlt : i + 1 < (sortPrices (a :: t)).length
    · have h1 : (mkRow (sortPrices (a :: t)) starts2 i).time_start =
          starts2.getD i 0 := rfl
      have h2 : (mkRow (sortPrices (a :: t)) starts2 i).time_end =
          starts2.getD (i + 1) 0 := by simp [mkRow, hlt]
      rw [h1, h2]
      exact pairwise_lt_getD starts2 hmono i (i + 1) (by omega) (by omega)
    · have h1 : (mkRow (sortPrices (a :: t)) starts2 i).time_start =
          starts2.getD i 0 := rfl
      have h2 : (mkRow (sortPrices (a :: t)) starts2 i).time_end =
          starts2.getD i 0 +
            (if 2 ≤ starts2.length then
              starts2.getD (starts2.length - 1) 0 -
                starts2.getD (starts2.length - 2) 0
            else 3600) := by simp [mkRow, hlt]
      rw [h1, h2]
      by_cases h2le : 2 ≤ starts2.length
      · rw [if_pos h2le]
        have hd : starts2.getD (starts2.length - 2) 0 <
            starts2.getD (starts2.length - 1) 0 :=
          pairwise_lt_getD starts2 hmono _ _ (by omega) (by omega)
        omega
      · rw [if_neg h2le]
        omega

/-- C3 amended witness: two samples 15 minutes apart; both intervals are
strictly positive in length. -/
theorem claim_C3_amended_strict_witness :
    ∃ rows,
      build_price_rows
        [⟨"2025-01-01T00:00:00Z", 1⟩, ⟨"2025-01-01T00:15:00Z", 2⟩] = some rows ∧
      ∀ r ∈ rows, r.time_start < r.time_end := by
  have hb :=
    build_price_rows_sorted_eq
      [⟨"2025-01-01T00:00:00Z", 1⟩, ⟨"2025-01-01T00:15:00Z", 2⟩]
      [1735689600, 1735690500] (by decide) (by decide) (by decide)
  exact ⟨_, hb,
    claim_C3_amended_strict _ [1735689600, 1735690500] _ (by decide) (by decide) hb⟩

/-! ### Claim C4 -/

/-- C4 counterexample: with mixed UTC offsets the code's sort is not
chronological.  The input `[a, b]` already has strictly ascending instants
(`a` maps to 1735686000, `b` to 1735689600), so a chronological stable sort
would return `[a, b]`; the code sorts by the raw string and returns
`[b, a]`, whose instants are strictly decreasing. -/
theorem claim_C4_counterexample :
    (sortPrices
        [⟨"2025-01-01T01:00:00+02:00", 1⟩, ⟨"2025-01-01T00:00:00+00:00", 2⟩]).map
        (·.startsAt) =
      ["2025-01-01T00:00:00+00:00", "2025-01-01T01:00:00+02:00"] ∧
    parse_iso "2025-01-01T01:00:00+02:00" = some 1735686000 ∧
    parse_iso "2025-01-01T00:00:00+00:00" = some 1735689600 ∧
    ¬ ((1735689600 : Int) ≤ 1735686000) := by
  decide

theorem filter_orderedInsert_eqKey (a : PriceSample) (k : String)
    (l : List PriceSample) (ha : a.startsAt = k) :
    (List.orderedInsert sampleLe a l).filter (fun p => p.startsAt == k) =
      a :: l.filter (fun p => p.startsAt == k) := by
  induction l with
  | nil => simp [List.orderedInsert, List.filter_cons, ha]
  | cons b t ih =>
    rw [List.orderedInsert]
    by_cases hr : sampleLe a b
    · rw [if_pos hr]
      simp [List.filter_cons, ha]
    · rw [if_neg hr]
      have hb : ¬ (b.startsAt = k) := by
        intro hbk
        apply hr
        show charListLe a.startsAt.data b.startsAt.data = true
        rw [ha, hbk]
        exact charListLe_refl _
      simp [List.filter_cons, ha, hb, ih]

theorem filter_orderedInsert_neKey (a : PriceSample) (k : String)
    (l : List PriceSample) (ha : ¬ (a.startsAt = k)) :
    (List.orderedInsert sampleLe a l).filter (fun p => p.startsAt == k) =
      l.filter (fun p => p.startsAt == k) := by
  induction l with
  | nil => simp [List.orderedInsert, List.filter_cons, ha]
  | cons b t ih =>
    rw [List.orderedInsert]
    by_cases hr : sampleLe a b
    · rw [if_pos hr]
      simp [List.filter_cons, ha]
    · rw [if_neg hr]
      simp [List.filter_cons, ih]

/-- C4 amended: `build_price_rows` first sorts the samples ascending by the
raw `startsAt` string (lexicographic code-point order, which coincides with
chronological order only when all samples use one offset convention); the
sort is a permutation, and it is stable in the standard sense: for every
key, the samples carrying that exact string keep their original relative
order. -/
theorem claim_C4_amended_sort (prices : List PriceSample) :
    List.Sorted sampleLe (sortPrices prices) ∧
    (sortPrices prices).Perm prices ∧
    ∀ s : String,
      (sortPrices prices).filter (fun p => p.startsAt == s) =
        prices.filter (fun p => p.startsAt == s) := by
  refine ⟨List.sorted_insertionSort sampleLe prices,
    List.perm_insertionSort sampleLe prices, fun s => ?_⟩
  induction prices with
  | nil => rfl
  | cons a t ih =>
    show (List.orderedInsert sampleLe a
        (List.insertionSort sampleLe t)).filter (fun p => p.startsAt == s) = _
    by_cases ha : a.startsAt = s
    · rw [filter_orderedInsert_eqKey a s _ ha]
      rw [show List.insertionSort sampleLe t = sortPrices t from rfl, ih]
      simp [List.filter_cons, ha]
    · rw [filter_orderedInsert_neKey a s _ ha]
      rw [show List.insertionSort sampleLe t = sortPrices t from rfl, ih]
      simp [List.filter_cons, ha]

/-! ### Window Aggregator lemmas -/

theorem sum_nodes_nil (limit : Option Nat) (fm : Option (Nat × Nat)) :
    sum_nodes [] limit fm = ⟨0, 0, none⟩ := rfl

theorem sum_nodes_nonempty (nodes : List Node) (hne : nodes ≠ [])
    (limit : Option Nat) (fm : Option (Nat × Nat)) :
    sum_nodes nodes limit fm =
      finalize ((applyLimit limit (sortNodes nodes)).foldl
        (node_step fm) ⟨0, 0, none⟩) := by
  cases nodes with
  | nil => exact absurd rfl hne
  | cons a t =>
    unfold sum_nodes
    rw [if_neg (by simp)]

theorem node_step_filter_false (ym : Nat × Nat) (acc : SumOut) (n : Node)
    (h : monthMatches ym n = false) : node_step (some ym) acc n = acc := by
  cases hf : n.«from» with
  | none => simp [node_step, hf]
  | some s =>
    cases hd : parse_date s with
    | none => simp [node_step, hf, hd]
    | some ymd =>
      obtain ⟨y, mo, d⟩ := ymd
      simp only [monthMatches, hf, hd, beq_eq_false_iff_ne, ne_eq] at h
      simp [node_step, hf, hd, h]

theorem node_step_filter_true (ym : Nat × Nat) (acc : SumOut) (n : Node)
    (h : monthMatches ym n = true) :
    node_step (some ym) acc n = node_step none acc n := by
  cases hf : n.«from» with
  | none =>
    exfalso
    simp [monthMatches, hf] at h
  | some s =>
    cases hd : parse_date s with
    | none =>
      exfalso
      simp [monthMatches, hf, hd] at h
    | some ymd =>
      obtain ⟨y, mo, d⟩ := ymd
      simp only [monthMatches, hf, hd, beq_iff_eq] at h
      simp [node_step, hf, hd, h]

theorem mem_applyLimit (limit : Option Nat) (nodes : List Node) (n : Node)
    (hn : n ∈ applyLimit limit (sortNodes nodes)) : n ∈ nodes := by
  have h1 : n ∈ sortNodes nodes := by
    cases limit with
    | none => exact hn
    | some l =>
      have hsub : (applyLimit (some l) (sortNodes nodes)).Sublist
          (sortNodes nodes) := by
        simp only [applyLimit, takeLast]
        split
        · exact List.Sublist.refl _
        · exact List.drop_sublist _ _
      exact hsub.subset hn
  exact (List.perm_insertionSort nodeLe nodes).mem_iff.mp h1

theorem foldl_node_step_filter (ym : Nat × Nat) :
    ∀ (l : List Node) (acc : SumOut),
      l.foldl (node_step (some ym)) acc =
        (l.filter (monthMatches ym)).foldl (node_step none) acc := by
  intro l
  induction l with
  | nil => intro acc; rfl
  | cons n t ih =>
    intro acc
    cases hm : monthMatches ym n with
    | false =>
      rw [List.foldl_cons, node_step_filter_false ym acc n hm,
        List.filter_cons_of_neg (by simp [hm])]
      exact ih acc
    | true =>
      rw [List.foldl_cons, node_step_filter_true ym acc n hm,
        List.filter_cons_of_pos hm, List.foldl_cons]
      exact ih _

theorem foldl_node_step_id (ym : Nat × Nat) :
    ∀ (l : List Node), (∀ n ∈ l, monthMatches ym n = false) →
      ∀ acc, l.foldl (node_step (some ym)) acc = acc := by
  intro l
  induction l with
  | nil => intro _ acc; rfl
  | cons b t ih =>
    intro hl acc
    rw [List.foldl_cons, node_step_filter_false ym acc b (hl b (by simp))]
    exact ih (fun n hn' => hl n (by simp [hn'])) acc

/-! ### Claim C6 -/

/-- C6: with the calendar-month selector, `sum_nodes` computes exactly the
aggregate of the samples whose `from` month equals the target `(year,
month)` (those retained by `monthMatches`), with no limit on their number;
all other samples, including temporally adjacent ones, contribute nothing. -/
theorem claim_C6_month_selector (nodes : List Node) (ym : Nat × Nat) :
    sum_nodes nodes none (some ym) =
      sum_nodes ((sortNodes nodes).filter (monthMatches ym)) none none := by
  by_cases hn : nodes = []
  · subst hn; rfl
  · rw [sum_nodes_nonempty nodes hn none (some ym)]
    simp only [applyLimit]
    rw [foldl_node_step_filter ym (sortNodes nodes) ⟨0, 0, none⟩]
    by_cases hf : (sortNodes nodes).filter (monthMatches ym) = []
    · rw [hf, sum_nodes_nil]
      exact finalize_zero
    · rw [sum_nodes_nonempty _ hf none none]
      simp only [applyLimit]
      have hsorted : List.Sorted nodeLe
          ((sortNodes nodes).filter (monthMatches ym)) :=
        List.Pairwise.filter (monthMatches ym)
          (List.sorted_insertionSort nodeLe nodes)
      rw [show sortNodes ((sortNodes nodes).filter (monthMatches ym)) =
          (sortNodes nodes).filter (monthMatches ym) from
        hsorted.insertionSort_eq]

/-! ### Claim C5 -/

/-- C5 counterexample: with N = 0 the claim says the final zero entries are
summed (an empty aggregate), but Python's `xs[-0:]` is the whole list: the
single sample's currency (and sums) survive into the result. -/
theorem claim_C5_counterexample :
    lastEntries 0 (sortNodes
      [⟨some "2025-01-01T00:00:00+01:00", some (.num 5), some (.num 2),
        some "SEK"⟩]) = [] ∧
    (sum_nodes
      [⟨some "2025-01-01T00:00:00+01:00", some (.num 5), some (.num 2),
        some "SEK"⟩] (some 0) none).currency = some "SEK" := by
  decide

/-- C5 amended: for every N with `1 ≤ N`, `sum_nodes` with the last-N
selector first sorts ascending by the `from` key (missing `from` as the
empty key) and then aggregates exactly the final N entries of the sorted
sequence (all of them when the list is shorter); samples outside that
suffix contribute nothing.  For N = 0 the slice `xs[-0:]` keeps the whole
list instead (see the counterexample and C10). -/
theorem claim_C5_amended_lastN (nodes : List Node) (N : Nat) (hN : 1 ≤ N)
    (fm : Option (Nat × Nat)) :
    List.Sorted nodeLe (sortNodes nodes) ∧
    (sortNodes nodes).Perm nodes ∧
    sum_nodes nodes (some N) fm =
      sum_nodes (lastEntries N (sortNodes nodes)) none fm := by
  refine ⟨List.sorted_insertionSort nodeLe nodes,
    List.perm_insertionSort nodeLe nodes, ?_⟩
  by_cases hn : nodes = []
  · subst hn
    rw [show lastEntries N (sortNodes []) = [] from by
      simp [lastEntries, sortNodes, List.insertionSort]]
    rw [sum_nodes_nil, sum_nodes_nil]
  · rw [sum_nodes_nonempty nodes hn (some N) fm]
    have hlen : (sortNodes nodes).length = nodes.length :=
      (List.perm_insertionSort nodeLe nodes).length_eq
    have hlast : applyLimit (some N) (sortNodes nodes) =
        lastEntries N (sortNodes nodes) := by
      simp only [applyLimit, takeLast, lastEntries]
      rw [if_neg (by omega)]
    rw [hlast]
    have h1 : nodes.length ≠ 0 := fun h0 => hn (List.length_eq_zero.mp h0)
    have hlen2 : (lastEntries N (sortNodes nodes)).length =
        (sortNodes nodes).length - ((sortNodes nodes).length - N) := by
      simp [lastEntries]
    have hne2 : lastEntries N (sortNodes nodes) ≠ [] := by
      intro he
      rw [he] at hlen2
      simp at hlen2
      omega
    rw [sum_nodes_nonempty _ hne2 none fm]
    simp only [applyLimit]
    have hsorted : List.Sorted nodeLe (lastEntries N (sortNodes nodes)) :=
      List.Pairwise.sublist (List.drop_sublist _ _)
        (List.sorted_insertionSort nodeLe nodes)
    rw [show sortNodes (lastEntries N (sortNodes nodes)) =
        lastEntries N (sortNodes nodes) from hsorted.insertionSort_eq]

/-- C5 amended witness: two ascending samples, N = 1: the limited sum equals
the sum over just the final entry of the sorted list. -/
theorem claim_C5_amended_lastN_witness :
    List.Sorted nodeLe (sortNodes
      [⟨some "2025-01-01T00:00:00+01:00", some (.num 5), some (.num 2),
        some "SEK"⟩,
       ⟨some "2025-01-02T00:00:00+01:00", some (.num 7), some (.num 3),
        some "SEK"⟩]) ∧
    (sortNodes
      [⟨some "2025-01-01T00:00:00+01:00", some (.num 5), some (.num 2),
        some "SEK"⟩,
       ⟨some "2025-01-02T00:00:00+01:00", some (.num 7), some (.num 3),
        some "SEK"⟩]).Perm
      [⟨some "2025-01-01T00:00:00+01:00", some (.num 5), some (.num 2),
        some "SEK"⟩,
       ⟨some "2025-01-02T00:00:00+01:00", some (.num 7), some (.num 3),
        some "SEK"⟩] ∧
    sum_nodes
      [⟨some "2025-01-01T00:00:00+01:00", some (.num 5), some (.num 2),
        some "SEK"⟩,
       ⟨some "2025-01-02T00:00:00+01:00", some (.num 7), some (.num 3),
        some "SEK"⟩] (some 1) none =
      sum_nodes (lastEntries 1 (sortNodes
        [⟨some "2025-01-01T00:00:00+01:00", some (.num 5), some (.num 2),
          some "SEK"⟩,
         ⟨some "2025-01-02T00:00:00+01:00", some (.num 7), some (.num 3),
          some "SEK"⟩])) none none :=
  claim_C5_amended_lastN _ 1 (by decide) none

/-! ### Claim C10 -/

/-- C10: calling `sum_nodes` with `limit = 0` on a non-empty list keeps the
whole sorted list (Python's `xs[-0:]` is `xs[0:]`), so the result coincides
with `limit = None`. -/
theorem claim_C10_limit_zero (nodes : List Node) (fm : Option (Nat × Nat))
    (hne : nodes ≠ []) :
    sum_nodes nodes (some 0) fm = sum_nodes nodes none fm := by
  rw [sum_nodes_nonempty nodes hne (some 0) fm,
    sum_nodes_nonempty nodes hne none fm]
  simp [applyLimit, takeLast]

/-- C10 witness: on a one-element list, `limit = 0` and `limit = None` give
the same aggregate. -/
theorem claim_C10_limit_zero_witness :
    ([⟨some "2025-01-01T00:00:00+01:00", some (.num 5), some (.num 2),
        some "SEK"⟩] : List Node) ≠ [] ∧
    sum_nodes
      [⟨some "2025-01-01T00:00:00+01:00", some (.num 5), some (.num 2),
        some "SEK"⟩] (some 0) none =
      sum_nodes
        [⟨some "2025-01-01T00:00:00+01:00", some (.num 5), some (.num 2),
          some "SEK"⟩] none none :=
  ⟨by decide, claim_C10_limit_zero _ none (by decide)⟩

/-! ### Claim C9 -/

/-- C9: the empty node list, and any list in which the month selector
retains no sample, aggregate to `{kwh 0, cost 0, currency none}`; the
function is total, so no error is raised. -/
theorem claim_C9_empty_aggregate (nodes : List Node) (limit : Option Nat)
    (fm : Option (Nat × Nat))
    (h : nodes = [] ∨
      ∃ ym, fm = some ym ∧ ∀ n ∈ nodes, monthMatches ym n = false) :
    sum_nodes nodes limit fm = ⟨0, 0, none⟩ := by
  rcases h with rfl | ⟨ym, rfl, hall⟩
  · exact sum_nodes_nil limit fm
  · by_cases hn : nodes = []
    · subst hn; exact sum_nodes_nil limit _
    · rw [sum_nodes_nonempty nodes hn limit (some ym)]
      rw [foldl_node_step_id ym _
        (fun n hn' => hall n (mem_applyLimit limit nodes n hn')) _]
      exact finalize_zero

/-- C9 witness: a January sample filtered by February 2025 yields the empty
aggregate. -/
theorem claim_C9_empty_aggregate_witness :
    (∀ n ∈ ([⟨some "2025-01-15T00:00:00+01:00", some (.num 5), some (.num 2),
        some "SEK"⟩] : List Node), monthMatches (2025, 2) n = false) ∧
    sum_nodes
      [⟨some "2025-01-15T00:00:00+01:00", some (.num 5), some (.num 2),
        some "SEK"⟩] none (some (2025, 2)) = ⟨0, 0, none⟩ :=
  ⟨by decide,
    claim_C9_empty_aggregate _ none _ (Or.inr ⟨(2025, 2), rfl, by decide⟩)⟩

/-! ### Claim C7 -/

theorem node_step_passes (fm : Option (Nat × Nat)) (acc : SumOut) (n : Node)
    (hpass : passes_filter fm n = true) :
    node_step fm acc n = node_step_core acc n := by
  cases fm with
  | none => rfl
  | some ym =>
    have hm : monthMatches ym n = true := hpass
    rw [node_step_filter_true ym acc n hm]
    rfl

/-- C7 counterexample: a retained sample with a numeric consumption (5) and
a non-coercible cost (`"abc"`) is not skipped entirely: `sum_nodes` adds the
5 to `total_kwh` before the cost coercion raises.  `aggregate_consumption`
(`tibber_to_json.py`), which has no `try/except`, aborts outright on the
same record. -/
theorem claim_C7_counterexample :
    sum_nodes
      [⟨some "2025-01-01T00:00:00+01:00", some (.num 5), some (.str "abc"),
        some "SEK"⟩] none none = ⟨5, 0, none⟩ ∧
    (5 : Rat) ≠ 0 ∧
    aggregate_consumption
      [⟨some "2025-01-01T00:00:00+01:00", some (.num 5), some (.str "abc"),
        some "SEK"⟩] = none := by
  refine ⟨?_, by norm_num, by decide⟩
  rw [sum_nodes_nonempty _ (by decide) none none]
  show finalize ⟨(0 : Rat) + 5, 0, none⟩ = ⟨5, 0, none⟩
  unfold finalize
  rw [show (0 : Rat) + 5 = ((5 : Int) : Rat) by norm_num, roundTo_intCast,
    roundTo_zero]
  norm_num

/-- C7 amended: in the loop body of `sum_nodes`, a retained sample whose
consumption value cannot be coerced contributes nothing at all; when the
consumption is absent or coercible (contributing `q`) but the cost value
cannot be coerced, the accumulator keeps the kwh increment `q` while cost
and currency are untouched.  The body is total, so aggregation never
aborts. -/
theorem claim_C7_amended_skip (fm : Option (Nat × Nat)) (acc : SumOut)
    (n : Node) (hpass : passes_filter fm n = true) :
    (∀ v, n.consumption = some v → pyFloat? v = none →
      node_step fm acc n = acc) ∧
    (∀ q, coerce_or_zero n.consumption = some q →
      ∀ v, n.cost = some v → pyFloat? v = none →
        node_step fm acc n = { acc with kwh := acc.kwh + q }) := by
  have hstep := node_step_passes fm acc n hpass
  constructor
  · intro v hv hflt
    rw [hstep]
    simp only [node_step_core, hv, hflt]
  · intro q hq v hv hflt
    rw [hstep]
    cases hc : n.consumption with
    | none =>
      rw [hc] at hq
      have hq0 : q = 0 := by simpa [coerce_or_zero] using hq.symm
      subst hq0
      simp only [node_step_core, hc, node_step_cost, hv, hflt]
      cases acc
      simp
    | some v0 =>
      rw [hc] at hq
      have hq' : pyFloat? v0 = some q := by simpa [coerce_or_zero] using hq
      simp only [node_step_core, hc, hq', node_step_cost, hv, hflt]

/-- C7 amended witness: with accumulator (1, 2, none), a sample with
non-coercible consumption leaves it unchanged, and a sample with
consumption 5 but non-coercible cost yields kwh 1 + 5 with cost and
currency untouched. -/
theorem claim_C7_amended_skip_witness :
    node_step none ⟨1, 2, none⟩
      ⟨some "2025-01-01T00:00:00+01:00", some (.str "oops"), some (.num 3),
        some "SEK"⟩ = ⟨1, 2, none⟩ ∧
    node_step none ⟨1, 2, none⟩
      ⟨some "2025-01-01T00:00:00+01:00", some (.num 5), some (.str "abc"),
        some "SEK"⟩ = ⟨1 + 5, 2, none⟩ := by
  constructor
  · exact (claim_C7_amended_skip none ⟨1, 2, none⟩ _ (by decide)).1
      (.str "oops") rfl (by decide)
  · exact (claim_C7_amended_skip none ⟨1, 2, none⟩ _ (by decide)).2
      5 (by decide) (.str "abc") rfl (by decide)

/-! ### Claim C8 -/

theorem cur_currency_keep (acc : SumOut) (n : Node)
    (hacc : falsyCur acc.currency = false) :
    (node_step_cur acc n).currency = acc.currency := by
  unfold node_step_cur
  rw [if_neg (by simp [hacc])]

theorem cost_currency_keep (acc : SumOut) (n : Node)
    (hacc : falsyCur acc.currency = false) :
    (node_step_cost acc n).currency = acc.currency := by
  cases hk : n.cost with
  | none =>
    simp only [node_step_cost, hk]
    exact cur_currency_keep acc n hacc
  | some v =>
    cases hf : pyFloat? v with
    | none => simp only [node_step_cost, hk, hf]
    | some q =>
      simp only [node_step_cost, hk, hf]
      exact cur_currency_keep { acc with cost := acc.cost + q } n hacc

theorem core_currency_keep (acc : SumOut) (n : Node)
    (hacc : falsyCur acc.currency = false) :
    (node_step_core acc n).currency = acc.currency := by
  cases hc : n.consumption with
  | none =>
    simp only [node_step_core, hc]
    exact cost_currency_keep acc n hacc
  | some v =>
    cases hf : pyFloat? v with
    | none => simp only [node_step_core, hc, hf]
    | some q =>
      simp only [node_step_core, hc, hf]
      exact cost_currency_keep { acc with kwh := acc.kwh + q } n hacc

theorem step_currency_keep (fm : Option (Nat × Nat)) (acc : SumOut) (n : Node)
    (hacc : falsyCur acc.currency = false) :
    (node_step fm acc n).currency = acc.currency := by
  cases fm with
  | none =>
    simp only [node_step]
    exact core_currency_keep acc n hacc
  | some ym =>
    cases hm : monthMatches ym n with
    | false => rw [node_step_filter_false ym acc n hm]
    | true =>
      rw [node_step_filter_true ym acc n hm]
      simp only [node_step]
      exact core_currency_keep acc n hacc

theorem cur_currency_set (acc : SumOut) (n : Node)
    (hacc : falsyCur acc.currency = true) :
    (node_step_cur acc n).currency = n.currency := by
  unfold node_step_cur
  rw [if_pos hacc]

theorem cost_currency_ok (acc : SumOut) (n : Node)
    (hacc : falsyCur acc.currency = true) (hk : coercible n.cost = true) :
    (node_step_cost acc n).currency = n.currency := by
  cases hkc : n.cost with
  | none =>
    simp only [node_step_cost, hkc]
    exact cur_currency_set acc n hacc
  | some v =>
    cases hf : pyFloat? v with
    | none => exfalso; simp [coercible, hkc, hf] at hk
    | some q =>
      simp only [node_step_cost, hkc, hf]
      exact cur_currency_set { acc with cost := acc.cost + q } n hacc

theorem core_currency_ok (acc : SumOut) (n : Node)
    (hacc : falsyCur acc.currency = true)
    (hc : coercible n.consumption = true) (hk : coercible n.cost = true) :
    (node_step_core acc n).currency = n.currency := by
  cases hcc : n.consumption with
  | none =>
    simp only [node_step_core, hcc]
    exact cost_currency_ok acc n hacc hk
  | some v =>
    cases hf : pyFloat? v with
    | none => exfalso; simp [coercible, hcc, hf] at hc
    | some q =>
      simp only [node_step_core, hcc, hf]
      exact cost_currency_ok { acc with kwh := acc.kwh + q } n hacc hk

theorem step_currency_ok (fm : Option (Nat × Nat)) (acc : SumOut) (n : Node)
    (hacc : falsyCur acc.currency = true) (h : node_ok fm n = true) :
    (node_step fm acc n).currency = n.currency := by
  have h' := h
  simp only [node_ok, Bool.and_eq_true] at h'
  obtain ⟨⟨hp, hc⟩, hk⟩ := h'
  rw [node_step_passes fm acc n hp]
  exact core_currency_ok acc n hacc hc hk

theorem step_currency_unmoved (fm : Option (Nat × Nat)) (acc : SumOut)
    (n : Node) (h : node_ok fm n = false) :
    (node_step fm acc n).currency = acc.currency := by
  cases hp : passes_filter fm n with
  | false =>
    cases fm with
    | none => exact absurd hp (by simp [passes_filter])
    | some ym => rw [node_step_filter_false ym acc n hp]
  | true =>
    rw [node_step_passes fm acc n hp]
    cases hcc2 : coercible n.consumption with
    | false =>
      cases hcc : n.consumption with
      | none => exfalso; simp [coercible, hcc] at hcc2
      | some v =>
        cases hf : pyFloat? v with
        | some q => exfalso; simp [coercible, hcc, hf] at hcc2
        | none => simp only [node_step_core, hcc, hf]
    | true =>
      have hkf : coercible n.cost = false := by
        simp only [node_ok, hp, hcc2, Bool.true_and, Bool.and_self] at h
        exact h
      cases hk : n.cost with
      | none => exfalso; simp [coercible, hk] at hkf
      | some v2 =>
        cases hf2 : pyFloat? v2 with
        | some q2 => exfalso; simp [coercible, hk, hf2] at hkf
        | none =>
          cases hcc : n.consumption with
          | none => simp only [node_step_core, hcc, node_step_cost, hk, hf2]
          | some v =>
            cases hf : pyFloat? v with
            | none => exfalso; simp [coercible, hcc, hf] at hcc2
            | some q =>
              simp only [node_step_core, hcc, hf, node_step_cost, hk, hf2]

theorem foldl_currency_frozen (fm : Option (Nat × Nat)) :
    ∀ (l : List Node) (acc : SumOut), falsyCur acc.currency = false →
      (l.foldl (node_step fm) acc).currency = acc.currency := by
  intro l
  induction l with
  | nil => intro acc _; rfl
  | cons n t ih =>
    intro acc hacc
    rw [List.foldl_cons]
    have h1 : (node_step fm acc n).currency = acc.currency :=
      step_currency_keep fm acc n hacc
    have h2 := ih (node_step fm acc n) (by rw [h1]; exact hacc)
    rw [h2, h1]

theorem foldl_currency_general (fm : Option (Nat × Nat)) :
    ∀ (l : List Node) (acc : SumOut), falsyCur acc.currency = true →
      (l.foldl (node_step fm) acc).currency =
        currency_spec (l.filter (node_ok fm)) acc.currency := by
  intro l
  induction l with
  | nil => intro acc _; rfl
  | cons n t ih =>
    intro acc hacc
    rw [List.foldl_cons]
    cases hok : node_ok fm n with
    | false =>
      rw [List.filter_cons_of_neg (by simp [hok])]
      rw [ih (node_step fm acc n)
        (by rw [step_currency_unmoved fm acc n hok]; exact hacc)]
      rw [step_currency_unmoved fm acc n hok]
    | true =>
      rw [List.filter_cons_of_pos hok]
      have h1 : (node_step fm acc n).currency = n.currency :=
        step_currency_ok fm acc n hacc hok
      cases htc : truthyCur n with
      | some s =>
        have hnc : n.currency = some s ∧ s ≠ "" := by
          cases hc : n.currency with
          | none =>
            simp only [truthyCur, hc] at htc
            exact absurd htc (by simp)
          | some s0 =>
            simp only [truthyCur, hc] at htc
            by_cases hs0 : s0 = ""
            · rw [if_pos hs0] at htc; cases htc
            · rw [if_neg hs0] at htc
              have hs : s0 = s := Option.some.inj htc
              subst hs
              exact ⟨rfl, hs0⟩
        have h2 := foldl_currency_frozen fm t (node_step fm acc n)
          (by rw [h1, hnc.1]; simp [falsyCur, hnc.2])
        rw [h2, h1, hnc.1]
        simp only [currency_spec, List.findSome?_cons, htc]
      | none =>
        have hfalsy : falsyCur (node_step fm acc n).currency = true := by
          rw [h1]
          cases hc : n.currency with
          | none => simp [falsyCur]
          | some s0 =>
            simp only [truthyCur, hc] at htc
            by_cases hs0 : s0 = ""
            · simp [falsyCur, hc, hs0]
            · rw [if_neg hs0] at htc; cases htc
        rw [ih (node_step fm acc n) hfalsy, h1]
        simp only [currency_spec, List.findSome?_cons, htc]
        cases hfs : (t.filter (node_ok fm)).findSome? truthyCur with
        | some s => simp only [hfs]
        | none =>
          simp only [hfs]
          cases hft : t.filter (node_ok fm) with
          | nil => rfl
          | cons m rest =>
            rw [List.getLast?_cons_cons]
            cases hgl : (m :: rest).getLast? with
            | some k => simp only [hgl]
            | none => exfalso; simp at hgl

/-- C8 counterexample: retained samples carry currencies
`["SEK", "", "NOK"]` in sorted order, so the first non-null currency is
`"SEK"`; but the first sample fails its consumption coercion (skipping its
currency) and the second's empty string is falsy and gets overwritten, so
the code returns `"NOK"`. -/
theorem claim_C8_counterexample :
    (sortNodes
      [⟨some "2025-01-01T00:00:00+01:00", some (.str "abc"), none, some "SEK"⟩,
       ⟨some "2025-01-01T01:00:00+01:00", some (.num 1), none, some ""⟩,
       ⟨some "2025-01-01T02:00:00+01:00", none, none, some "NOK"⟩]).map
        (fun n => n.currency) = [some "SEK", some "", some "NOK"] ∧
    (sum_nodes
      [⟨some "2025-01-01T00:00:00+01:00", some (.str "abc"), none, some "SEK"⟩,
       ⟨some "2025-01-01T01:00:00+01:00", some (.num 1), none, some ""⟩,
       ⟨some "2025-01-01T02:00:00+01:00", none, none, some "NOK"⟩]
      none none).currency = some "NOK" := by
  decide

/-- C8 amended: the currency of the result is computed from the `node_ok`
samples (those retained by the filter that also survive both numeric
coercions), in sorted-and-limited order: it is the first currency among
them that is neither null nor empty; when no such currency occurs, it is
the currency field of the last ok sample (so a lone empty-string currency
is returned as `""`, not null — a falsy value is assigned but remains
overwritable); with no ok samples it is null.  It is not simply the first
non-null currency among retained samples, and later differing currencies
are never validated. -/
theorem claim_C8_amended_currency (nodes : List Node) (limit : Option Nat)
    (fm : Option (Nat × Nat)) :
    (sum_nodes nodes limit fm).currency =
      currency_spec
        ((applyLimit limit (sortNodes nodes)).filter (node_ok fm)) none := by
  by_cases hn : nodes = []
  · subst hn
    rw [sum_nodes_nil]
    cases limit with
    | none => rfl
    | some l =>
      simp [applyLimit, takeLast, sortNodes, List.insertionSort, currency_spec]
  · rw [sum_nodes_nonempty nodes hn limit fm]
    rw [show (finalize ((applyLimit limit (sortNodes nodes)).foldl
        (node_step fm) ⟨0, 0, none⟩)).currency =
      ((applyLimit limit (sortNodes nodes)).foldl
        (node_step fm) ⟨0, 0, none⟩).currency from rfl]
    exact foldl_currency_general fm _ ⟨0, 0, none⟩ rfl

/-- A retained sample whose currency is the empty string and is last among
the ok samples makes the code return `""`, not null: the falsy value is
assigned by line 128 and nothing overwrites it. -/
theorem sum_nodes_lone_empty_currency :
    (sum_nodes
      [⟨some "2025-01-01T00:00:00+01:00", some (.num 1), none, some ""⟩]
      none none).currency = some "" ∧
    currency_spec
      [⟨some "2025-01-01T00:00:00+01:00", some (.num 1), none, some ""⟩]
      none = some "" := by
  decide
